import Mathlib

/-!
Verification of the `rust-graphs` repository: a minimal graph-traversal
engine with DFS and BFS implemented by one shared worklist algorithm
(`Graph::iterate_all`) parameterized by the frontier's dequeue policy.

The repository has two modules, `node_ref.rs` (nodes held by borrowed
references) and `node_rc.rs` (nodes held behind `Rc`).  In both, a `Node`
is an `id` together with an owned `Vec<Edge>`, and an `Edge` is a `weight`
together with a destination node.  Since nodes are immutable and every
node must be fully constructed before an edge can point to it, every
constructible graph unfolds to a finite tree of node values; the visited
set is a `HashSet` over the *derived* (structural) equality of `Node`, so
the traversal's behaviour depends only on that unfolding.  We therefore
embed `Node` as an inductive tree and the traversal as a fuel-indexed
interpreter of the `while let` loop, returning `none` when fuel runs out
and `some visits` (the sequence of arguments passed to the visitor `f`,
in call order) when the loop exits because the frontier is empty.
-/

/-- The two frontier disciplines of `node_ref.rs`/`node_rc.rs`:
`FifoNodeQueue` (pop_front) and `LifoNodeQueue` (pop_back). -/
inductive QueueKind where
  | fifo
  | lifo
deriving DecidableEq

/-- Both queue variants enqueue with `VecDeque::push_back`; the model keeps
the queue as a list in enqueue order, so `push_back` appends. -/
def enqueue {α : Type} (q : List α) (n : α) : List α :=
  q ++ [n]

/-- `dequeue` for the two variants: `FifoNodeQueue::dequeue` is `pop_front`
(the oldest element, at the head), `LifoNodeQueue::dequeue` is `pop_back`
(the most recently enqueued element, at the back). -/
def dequeue {α : Type} : QueueKind → List α → Option (α × List α)
  | _, [] => none
  | .fifo, n :: rest => some (n, rest)
  | .lifo, n :: rest => some ((n :: rest).getLast (by simp), (n :: rest).dropLast)

namespace NodeRef

mutual
/-- `Node` of `node_ref.rs`: an `id` and an owned list of outgoing edges.
Equality is the derived (structural) one, as in the Rust source. -/
inductive Node where
  | mk (id : Nat) (children : EdgeList)
deriving DecidableEq
/-- The `Vec<Edge>` of a node's children, unfolded as an inductive list. -/
inductive EdgeList where
  | nil
  | cons (e : Edge) (rest : EdgeList)
deriving DecidableEq
/-- `Edge` of `node_ref.rs`: a `weight` and a `destination_node`. -/
inductive Edge where
  | mk (weight : Nat) (destination_node : Node)
deriving DecidableEq
end

def Node.id : Node → Nat
  | .mk i _ => i

def Node.children : Node → EdgeList
  | .mk _ cs => cs

def Edge.weight : Edge → Nat
  | .mk w _ => w

def Edge.destination_node : Edge → Node
  | .mk _ d => d

/-- View an `EdgeList` as a plain `List` of edges (iteration order of
`children_edges_iter`). -/
def EdgeList.toList : EdgeList → List Edge
  | .nil => []
  | .cons e rest => e :: rest.toList

/-- The destination nodes of an edge list, in edge-list order. -/
def EdgeList.dests : EdgeList → List Node
  | .nil => []
  | .cons (.mk _ d) rest => d :: rest.dests

mutual
/-- All node values of the tree rooted at a node (the node itself and,
recursively, the subnodes of every edge destination). -/
def Node.subnodes : Node → List Node
  | .mk i cs => .mk i cs :: cs.subnodesList
/-- Subnodes contributed by an edge list. -/
def EdgeList.subnodesList : EdgeList → List Node
  | .nil => []
  | .cons (.mk _ d) rest => d.subnodes ++ rest.subnodesList
end

/-- The body of the `for edge in current_node.children_edges_iter()` loop of
`Graph::iterate_all`: for each edge in order, `already_visited.insert(child)`
and, if the child was newly inserted, `to_visit.enqueue(child)`.  Returns the
updated visited set and queue. -/
def enqueueChildren (visited queue : List Node) : EdgeList → List Node × List Node
  | .nil => (visited, queue)
  | .cons (.mk _ child) rest =>
    if child ∈ visited then enqueueChildren visited queue rest
    else enqueueChildren (child :: visited) (enqueue queue child) rest

/-- The `while let Some(current_node) = to_visit.dequeue()` loop of
`Graph::iterate_all`, as a fuel-indexed interpreter.  Returns `none` if the
fuel is exhausted before the frontier empties, and `some out` where `out` is
the list of nodes passed to the visitor `f`, in call order. -/
def iterateAux (k : QueueKind) : Nat → List Node → List Node → Option (List Node)
  | 0, _, _ => none
  | fuel + 1, visited, queue =>
    match dequeue k queue with
    | none => some []
    | some (cur, rest) =>
      match enqueueChildren visited rest cur.children with
      | (visited', queue') => (iterateAux k fuel visited' queue').map (fun out => cur :: out)

/-- `Graph::iterate_all`: enqueue and mark `start`, then run the loop.  The
fuel `start.subnodes.length + 1` is an upper bound on the number of loop
iterations, proved sufficient in `iterate_all_isSome`. -/
def iterate_all (k : QueueKind) (start : Node) : Option (List Node) :=
  iterateAux k (start.subnodes.length + 1) [start] [start]

/-- `Graph::dfs`: `iterate_all` with a `LifoNodeQueue`. -/
def Graph.dfs (start : Node) : Option (List Node) :=
  iterate_all QueueKind.lifo start

/-- `Graph::bfs`: `iterate_all` with a `FifoNodeQueue`. -/
def Graph.bfs (start : Node) : Option (List Node) :=
  iterate_all QueueKind.fifo start

/-- The visitor call sequence of a traversal (defined, since the loop always
terminates). -/
def visitSeq (k : QueueKind) (start : Node) : List Node :=
  (iterate_all k start).getD []

/-- Reachability from `s` along edges: `s` itself, and every destination of
an edge of a reachable node. -/
inductive Reaches (s : Node) : Node → Prop where
  | refl : Reaches s s
  | step {m : Node} {e : Edge} : Reaches s m → e ∈ m.children.toList →
      Reaches s e.destination_node

/-- The set (as a list, possibly with duplicates) of nodes at graph-distance
at most `k` from `s`. -/
def ball (s : Node) : Nat → List Node
  | 0 => [s]
  | k + 1 => ball s k ++ (ball s k).flatMap (fun n => n.children.dests)

/-- The node `n` is at graph-distance exactly `k` from `s`. -/
def distEq (s n : Node) (k : Nat) : Prop :=
  n ∈ ball s k ∧ ∀ j < k, n ∉ ball s j

instance (s n : Node) (k : Nat) : Decidable (distEq s n k) := by
  unfold distEq
  infer_instance

/-- List-style induction for `EdgeList` (the mutual recursor has several
motives, so we register a single-motive eliminator). -/
@[induction_eliminator]
def EdgeList.inductList {motive : EdgeList → Prop} (nil : motive .nil)
    (cons : ∀ e rest, motive rest → motive (.cons e rest)) : ∀ cs, motive cs
  | .nil => nil
  | .cons e rest => cons e rest (inductList nil cons rest)

/-- Helper predicate: `P` holds of every edge destination in the list. -/
def EdgeList.AllDests (P : Node → Prop) : EdgeList → Prop
  | .nil => True
  | .cons (.mk _ d) rest => P d ∧ rest.AllDests P

mutual
def Node.inductAux (P : Node → Prop)
    (h : ∀ i cs, cs.AllDests P → P (.mk i cs)) : (n : Node) → P n
  | .mk i cs => h i cs (EdgeList.inductAux P h cs)
def EdgeList.inductAux (P : Node → Prop)
    (h : ∀ i cs, cs.AllDests P → P (.mk i cs)) : (cs : EdgeList) → cs.AllDests P
  | .nil => trivial
  | .cons (.mk _ d) rest => ⟨Node.inductAux P h d, EdgeList.inductAux P h rest⟩
end

/-- The number of elements of `R` not yet in the visited set. -/
def unseen (R visited : List Node) : Nat :=
  (R.filter (fun x => x ∉ visited)).length

/-- Invariant of the BFS loop at level `d`: the queue is a block of
distance-`d` nodes followed by a block of distance-`d+1` nodes, every node at
distance at most `d` is marked visited, every visited node is either still
queued or has had all its children marked, and the queue is marked. -/
def bfsInv (s : Node) (d : Nat) (visited queue : List Node) : Prop :=
  (∃ A B, queue = A ++ B ∧ (∀ a ∈ A, distEq s a d) ∧ (∀ b ∈ B, distEq s b (d + 1))) ∧
  (∀ x ∈ ball s d, x ∈ visited) ∧
  (∀ n ∈ visited, n ∈ queue ∨ ∀ e ∈ n.children.toList, e.destination_node ∈ visited) ∧
  (∀ n ∈ queue, n ∈ visited)

/-- Node 5 of the test graph in `tests::it_works` (no outgoing edges). -/
def testN5 : Node := .mk 5 .nil

/-- Node 4 of the test graph: edge to 5. -/
def testN4 : Node := .mk 4 (.cons (.mk 1 testN5) .nil)

/-- Node 3 of the test graph: edges to 4 and 5. -/
def testN3 : Node := .mk 3 (.cons (.mk 1 testN4) (.cons (.mk 1 testN5) .nil))

/-- Node 2 of the test graph: edges to 4 and 3. -/
def testN2 : Node := .mk 2 (.cons (.mk 1 testN4) (.cons (.mk 1 testN3) .nil))

/-- Node 1 of the test graph: edges to 2 and 3 (the start node). -/
def testN1 : Node := .mk 1 (.cons (.mk 1 testN2) (.cons (.mk 1 testN3) .nil))

/-- A node with id 7 and no children. -/
def dupId7a : Node := .mk 7 .nil

/-- A distinct node object that shares id 7 but has a child with id 8. -/
def dupId7b : Node := .mk 7 (.cons (.mk 1 (.mk 8 .nil)) .nil)

/-- Start node with edges to the two distinct id-7 nodes. -/
def dupIdStart : Node := .mk 0 (.cons (.mk 1 dupId7a) (.cons (.mk 1 dupId7b) .nil))

/-- Shared leaf node with id 8. -/
def wShared : Node := .mk 8 .nil

/-- Node 7 with an edge of weight 1 to the leaf. -/
def wChildA : Node := .mk 7 (.cons (.mk 1 wShared) .nil)

/-- Node 7 with an edge of weight 2 to the leaf (differs from `wChildA` only
in that weight). -/
def wChildB : Node := .mk 7 (.cons (.mk 2 wShared) .nil)

/-- Graph whose two id-7 nodes carry inner edge weights 1 and 2. -/
def wGraphA : Node := .mk 0 (.cons (.mk 1 wChildA) (.cons (.mk 1 wChildB) .nil))

/-- The same graph with the single weight-2 edge changed to weight 1 (written
out literally: the second child is now structurally `wChildA`). -/
def wGraphB : Node := .mk 0 (.cons (.mk 1 wChildA) (.cons (.mk 1 (.mk 7 (.cons (.mk 1 wShared) .nil))) .nil))

end NodeRef

namespace NodeRc

mutual
/-- `Node` of `node_rc.rs`: an `id` and an owned list of outgoing edges. -/
inductive Node where
  | mk (id : Nat) (children : EdgeList)
deriving DecidableEq
/-- The `Vec<Edge>` of a node's children, unfolded as an inductive list. -/
inductive EdgeList where
  | nil
  | cons (e : Edge) (rest : EdgeList)
deriving DecidableEq
/-- `Edge` of `node_rc.rs`: a `weight` and an `Rc<Node>` destination. -/
inductive Edge where
  | mk (weight : Nat) (destination_node : Rc)
deriving DecidableEq
/-- `Rc<Node>`: a reference-counted box around a node.  Its derived
`PartialEq`/`Eq`/`Hash` delegate to the boxed node and `as_ref` borrows it;
the reference count itself is unobservable by the traversal, so the box
carries just the node value. -/
inductive Rc where
  | mk (value : Node)
deriving DecidableEq
end

/-- `Rc::as_ref`: borrow the boxed node. -/
def Rc.as_ref : Rc → Node
  | .mk n => n

def Node.id : Node → Nat
  | .mk i _ => i

def Node.children : Node → EdgeList
  | .mk _ cs => cs

def Edge.weight : Edge → Nat
  | .mk w _ => w

def Edge.destination_node : Edge → Rc
  | .mk _ d => d

/-- View an `EdgeList` as a plain `List` of edges. -/
def EdgeList.toList : EdgeList → List Edge
  | .nil => []
  | .cons e rest => e :: rest.toList

mutual
/-- All node values of the tree rooted at a node. -/
def Node.subnodes : Node → List Node
  | .mk i cs => .mk i cs :: cs.subnodesList
/-- Subnodes contributed by an edge list. -/
def EdgeList.subnodesList : EdgeList → List Node
  | .nil => []
  | .cons (.mk _ (.mk d)) rest => d.subnodes ++ rest.subnodesList
end

/-- The children loop of `node_rc.rs`'s `Graph::iterate_all`: here the child
is obtained as `edge.destination_node.as_ref()`. -/
def enqueueChildren (visited queue : List Node) : EdgeList → List Node × List Node
  | .nil => (visited, queue)
  | .cons (.mk _ rc) rest =>
    if rc.as_ref ∈ visited then enqueueChildren visited queue rest
    else enqueueChildren (rc.as_ref :: visited) (enqueue queue rc.as_ref) rest

/-- The `while let` loop of `node_rc.rs`'s `Graph::iterate_all`. -/
def iterateAux (k : QueueKind) : Nat → List Node → List Node → Option (List Node)
  | 0, _, _ => none
  | fuel + 1, visited, queue =>
    match dequeue k queue with
    | none => some []
    | some (cur, rest) =>
      match enqueueChildren visited rest cur.children with
      | (visited', queue') => (iterateAux k fuel visited' queue').map (fun out => cur :: out)

/-- `Graph::iterate_all` of `node_rc.rs`. -/
def iterate_all (k : QueueKind) (start : Node) : Option (List Node) :=
  iterateAux k (start.subnodes.length + 1) [start] [start]

/-- `Graph::dfs` of `node_rc.rs`. -/
def Graph.dfs (start : Node) : Option (List Node) :=
  iterate_all QueueKind.lifo start

/-- `Graph::bfs` of `node_rc.rs`. -/
def Graph.bfs (start : Node) : Option (List Node) :=
  iterate_all QueueKind.fifo start

/-- List-style induction for `NodeRc.EdgeList`. -/
@[induction_eliminator]
def EdgeList.inductList {motive : EdgeList → Prop} (nil : motive .nil)
    (cons : ∀ e rest, motive rest → motive (.cons e rest)) : ∀ cs, motive cs
  | .nil => nil
  | .cons e rest => cons e rest (inductList nil cons rest)

/-- Helper predicate: `P` holds of every boxed edge destination. -/
def EdgeList.AllDests (P : Node → Prop) : EdgeList → Prop
  | .nil => True
  | .cons (.mk _ (.mk d)) rest => P d ∧ rest.AllDests P

mutual
def Node.inductAux (P : Node → Prop)
    (h : ∀ i cs, cs.AllDests P → P (.mk i cs)) : (n : Node) → P n
  | .mk i cs => h i cs (EdgeList.inductAux P h cs)
def EdgeList.inductAux (P : Node → Prop)
    (h : ∀ i cs, cs.AllDests P → P (.mk i cs)) : (cs : EdgeList) → cs.AllDests P
  | .nil => trivial
  | .cons (.mk _ (.mk d)) rest => ⟨Node.inductAux P h d, EdgeList.inductAux P h rest⟩
end

mutual
/-- The evident correspondence from `node_rc` graphs to `node_ref` graphs:
identical ids, weights and shape, with the `Rc` boxes stripped. -/
def toRef : Node → NodeRef.Node
  | .mk i cs => .mk i (toRefEdges cs)
/-- Edge-list part of `toRef`. -/
def toRefEdges : EdgeList → NodeRef.EdgeList
  | .nil => .nil
  | .cons (.mk w (.mk d)) rest => .cons (.mk w (toRef d)) (toRefEdges rest)
end

mutual
/-- Inverse correspondence, boxing every destination in an `Rc`. -/
def ofRef : NodeRef.Node → Node
  | .mk i cs => .mk i (ofRefEdges cs)
/-- Edge-list part of `ofRef`. -/
def ofRefEdges : NodeRef.EdgeList → EdgeList
  | .nil => .nil
  | .cons (.mk w d) rest => .cons (.mk w (.mk (ofRef d))) (ofRefEdges rest)
end

end NodeRc

namespace NodeRef

/-- Structural induction on node trees: to prove `P` of every node it
suffices to prove it of a node assuming it of all its edge destinations. -/
theorem Node.induct (P : Node → Prop)
    (h : ∀ i cs, (∀ e ∈ cs.toList, P e.destination_node) → P (.mk i cs)) :
    ∀ n, P n := by
  have key : ∀ cs : EdgeList, cs.AllDests P → ∀ e ∈ cs.toList, P e.destination_node := by
    intro cs
    induction cs with
    | nil => intro _ e he; simp [EdgeList.toList] at he
    | cons e rest ih =>
      cases e with
      | mk w d =>
        intro hall e' he'
        simp only [EdgeList.toList, List.mem_cons] at he'
        rcases he' with rfl | he'
        · exact hall.1
        · exact ih hall.2 e' he'
  exact fun n => Node.inductAux P (fun i cs hall => h i cs (key cs hall)) n

theorem EdgeList.dests_eq_map (cs : EdgeList) :
    cs.dests = cs.toList.map Edge.destination_node := by
  induction cs with
  | nil => rfl
  | cons e rest ih => cases e; simp [EdgeList.dests, EdgeList.toList, ih, Edge.destination_node]

theorem Node.subnodes_def (n : Node) :
    n.subnodes = n :: n.children.subnodesList := by
  cases n; rfl

theorem EdgeList.mem_subnodesList {n : Node} {cs : EdgeList} :
    n ∈ cs.subnodesList ↔ ∃ e ∈ cs.toList, n ∈ e.destination_node.subnodes := by
  induction cs with
  | nil => simp [EdgeList.subnodesList, EdgeList.toList]
  | cons e rest ih =>
    cases e with
    | mk w d =>
      simp only [EdgeList.subnodesList, EdgeList.toList, List.mem_append, List.mem_cons, ih]
      constructor
      · rintro (hd | ⟨e', he', hn⟩)
        · exact ⟨.mk w d, Or.inl rfl, hd⟩
        · exact ⟨e', Or.inr he', hn⟩
      · rintro ⟨e', (rfl | he'), hn⟩
        · exact Or.inl hn
        · exact Or.inr ⟨e', he', hn⟩

theorem Node.self_mem_subnodes (n : Node) : n ∈ n.subnodes := by
  rw [Node.subnodes_def]
  exact List.mem_cons_self _ _

theorem Node.subnodes_closed (s : Node) :
    ∀ n ∈ s.subnodes, ∀ e ∈ n.children.toList, e.destination_node ∈ s.subnodes := by
  induction s using Node.induct with
  | h i cs ih =>
    intro n hn e he
    rw [Node.subnodes_def] at hn ⊢
    rcases List.mem_cons.mp hn with rfl | hn
    · refine List.mem_cons.mpr (Or.inr ?_)
      refine EdgeList.mem_subnodesList.mpr ⟨e, he, ?_⟩
      exact Node.self_mem_subnodes _
    · rcases EdgeList.mem_subnodesList.mp hn with ⟨e', he', hn'⟩
      refine List.mem_cons.mpr (Or.inr ?_)
      exact EdgeList.mem_subnodesList.mpr ⟨e', he', ih e' he' n hn' e he⟩

theorem Reaches.trans {a b c : Node} (h1 : Reaches a b) (h2 : Reaches b c) :
    Reaches a c := by
  induction h2 with
  | refl => exact h1
  | step _ he ih => exact .step ih he

/-- Membership in `subnodes` is exactly reachability along edges. -/
theorem reaches_iff_mem_subnodes (s n : Node) :
    Reaches s n ↔ n ∈ s.subnodes := by
  constructor
  · intro h
    induction h with
    | refl => exact Node.self_mem_subnodes s
    | step _ he ih => exact Node.subnodes_closed s _ ih _ he
  · intro h
    induction s using Node.induct generalizing n with
    | h i cs ih =>
      rw [Node.subnodes_def] at h
      rcases List.mem_cons.mp h with rfl | h
      · exact .refl
      · rcases EdgeList.mem_subnodesList.mp h with ⟨e, he, hn⟩
        have h1 : Reaches (Node.mk i cs) e.destination_node := .step .refl he
        exact h1.trans (ih e he n hn)

theorem dequeue_eq_none_iff {α : Type} (k : QueueKind) (q : List α) :
    dequeue k q = none ↔ q = [] := by
  cases k <;> cases q <;> simp [dequeue]

/-- Whatever the discipline, a successful `dequeue` removes exactly one
occurrence of the returned element from the queue. -/
theorem dequeue_perm {α : Type} {k : QueueKind} {q : List α} {c : α} {rest : List α}
    (h : dequeue k q = some (c, rest)) : q.Perm (c :: rest) := by
  cases q with
  | nil => cases k <;> simp [dequeue] at h
  | cons a t =>
    cases k with
    | fifo =>
      simp only [dequeue, Option.some.injEq, Prod.mk.injEq] at h
      obtain ⟨rfl, rfl⟩ := h
      exact List.Perm.refl _
    | lifo =>
      simp only [dequeue, Option.some.injEq, Prod.mk.injEq] at h
      obtain ⟨rfl, rfl⟩ := h
      have hq : (a :: t).dropLast ++ [(a :: t).getLast (by simp)] = a :: t :=
        List.dropLast_append_getLast (by simp)
      refine List.Perm.trans ?_ (List.perm_append_singleton _ _)
      rw [hq]


theorem unseen_insert {R visited : List Node} {c : Node}
    (hR : R.Nodup) (hcR : c ∈ R) (hcv : c ∉ visited) :
    unseen R (c :: visited) + 1 = unseen R visited := by
  induction R with
  | nil => simp at hcR
  | cons a R' ih =>
    rw [List.nodup_cons] at hR
    obtain ⟨haR', hR'⟩ := hR
    unfold unseen
    by_cases hac : a = c
    · subst hac
      rw [List.filter_cons_of_neg (by simp), List.filter_cons_of_pos (by simpa using hcv)]
      have hfi : R'.filter (fun x => decide (x ∉ a :: visited))
          = R'.filter (fun x => decide (x ∉ visited)) := by
        refine List.filter_congr ?_
        intro x hx
        have hxa : x ≠ a := fun hxa => haR' (hxa ▸ hx)
        simp [List.mem_cons, hxa]
      rw [hfi]
      simp
    · have hcR' : c ∈ R' := by
        rcases List.mem_cons.mp hcR with h | h
        · exact absurd h.symm hac
        · exact h
      have hstep := ih hR' hcR'
      unfold unseen at hstep
      by_cases hav : a ∈ visited
      · rw [List.filter_cons_of_neg (by simp [hav]),
          List.filter_cons_of_neg (by simp [List.mem_cons, hav])]
        exact hstep
      · rw [List.filter_cons_of_pos
            (by simp only [decide_eq_true_eq, List.mem_cons, not_or]; exact ⟨hac, hav⟩),
          List.filter_cons_of_pos (by simp [hav])]
        simp only [List.length_cons]
        omega

theorem ec_visited_mono (es : EdgeList) :
    ∀ visited queue (x : Node), x ∈ visited → x ∈ (enqueueChildren visited queue es).1 := by
  induction es with
  | nil => intro v q x hx; simpa [enqueueChildren] using hx
  | cons e rest ih =>
    cases e with
    | mk w d =>
      intro v q x hx
      by_cases hd : d ∈ v
      · simpa [enqueueChildren, hd] using ih v q x hx
      · simp only [enqueueChildren, hd, if_false]
        exact ih _ _ x (List.mem_cons.mpr (Or.inr hx))

theorem ec_queue_mono (es : EdgeList) :
    ∀ visited queue (x : Node), x ∈ queue → x ∈ (enqueueChildren visited queue es).2 := by
  induction es with
  | nil => intro v q x hx; simpa [enqueueChildren] using hx
  | cons e rest ih =>
    cases e with
    | mk w d =>
      intro v q x hx
      by_cases hd : d ∈ v
      · simpa [enqueueChildren, hd] using ih v q x hx
      · simp only [enqueueChildren, hd, if_false]
        exact ih _ _ x (by simp [enqueue, hx])

theorem ec_queue_from (es : EdgeList) :
    ∀ visited queue (x : Node), x ∈ (enqueueChildren visited queue es).2 →
      x ∈ queue ∨ (x ∈ es.dests ∧ x ∉ visited) := by
  induction es with
  | nil => intro v q x hx; simpa [enqueueChildren] using Or.inl hx
  | cons e rest ih =>
    cases e with
    | mk w d =>
      intro v q x hx
      by_cases hd : d ∈ v
      · simp only [enqueueChildren, hd, if_true] at hx
        rcases ih v q x hx with h | ⟨h1, h2⟩
        · exact Or.inl h
        · exact Or.inr ⟨by simp [EdgeList.dests, h1], h2⟩
      · simp only [enqueueChildren, hd, if_false] at hx
        rcases ih _ _ x hx with h | ⟨h1, h2⟩
        · rcases List.mem_append.mp h with h' | h'
          · exact Or.inl h'
          · have : x = d := by simpa [enqueue] using h'
            subst this
            exact Or.inr ⟨by simp [EdgeList.dests], hd⟩
        · have hxd : x ≠ d := fun hxd => h2 (by simp [hxd])
          have : x ∉ v := fun hxv => h2 (by simp [hxv])
          exact Or.inr ⟨by simp [EdgeList.dests, h1], this⟩

theorem ec_visited_from (es : EdgeList) :
    ∀ visited queue (x : Node), x ∈ (enqueueChildren visited queue es).1 →
      x ∈ visited ∨ x ∈ es.dests := by
  induction es with
  | nil => intro v q x hx; simpa [enqueueChildren] using Or.inl hx
  | cons e rest ih =>
    cases e with
    | mk w d =>
      intro v q x hx
      by_cases hd : d ∈ v
      · simp only [enqueueChildren, hd, if_true] at hx
        rcases ih v q x hx with h | h
        · exact Or.inl h
        · exact Or.inr (by simp [EdgeList.dests, h])
      · simp only [enqueueChildren, hd, if_false] at hx
        rcases ih _ _ x hx with h | h
        · rcases List.mem_cons.mp h with h' | h'
          · exact Or.inr (by simp [EdgeList.dests, h'])
          · exact Or.inl h'
        · exact Or.inr (by simp [EdgeList.dests, h])

theorem ec_queue_subset_visited (es : EdgeList) :
    ∀ visited queue, (∀ x ∈ queue, x ∈ visited) →
      ∀ x ∈ (enqueueChildren visited queue es).2, x ∈ (enqueueChildren visited queue es).1 := by
  induction es with
  | nil => intro v q hqv x hx; simpa [enqueueChildren] using hqv x (by simpa [enqueueChildren] using hx)
  | cons e rest ih =>
    cases e with
    | mk w d =>
      intro v q hqv
      by_cases hd : d ∈ v
      · simpa [enqueueChildren, hd] using ih v q hqv
      · simp only [enqueueChildren, hd, if_false]
        refine ih _ _ ?_
        intro x hx
        have hx' : x ∈ q ∨ x = d := by simpa [enqueue] using hx
        rcases hx' with h | rfl
        · exact List.mem_cons.mpr (Or.inr (hqv x h))
        · exact List.mem_cons.mpr (Or.inl rfl)

theorem ec_covers (es : EdgeList) :
    ∀ visited queue, ∀ e ∈ es.toList, e.destination_node ∈ (enqueueChildren visited queue es).1 := by
  induction es with
  | nil => intro v q e he; simp [EdgeList.toList] at he
  | cons e0 rest ih =>
    cases e0 with
    | mk w d =>
      intro v q e he
      simp only [EdgeList.toList, List.mem_cons] at he
      by_cases hd : d ∈ v
      · simp only [enqueueChildren, hd, if_true]
        rcases he with rfl | he
        · exact ec_visited_mono rest v q _ (by simpa [Edge.destination_node] using hd)
        · exact ih v q e he
      · simp only [enqueueChildren, hd, if_false]
        rcases he with rfl | he
        · exact ec_visited_mono rest _ _ _ (by simp [Edge.destination_node])
        · exact ih _ _ e he

theorem ec_nodup (es : EdgeList) :
    ∀ visited queue, queue.Nodup → (∀ x ∈ queue, x ∈ visited) →
      (enqueueChildren visited queue es).2.Nodup := by
  induction es with
  | nil => intro v q hq _; simpa [enqueueChildren] using hq
  | cons e rest ih =>
    cases e with
    | mk w d =>
      intro v q hq hqv
      by_cases hd : d ∈ v
      · simpa [enqueueChildren, hd] using ih v q hq hqv
      · simp only [enqueueChildren, hd, if_false]
        refine ih _ _ ?_ ?_
        · have hdq : d ∉ q := fun hdq => hd (hqv d hdq)
          simp [enqueue, List.nodup_append, hq, hdq]
        · intro x hx
          have hx' : x ∈ q ∨ x = d := by simpa [enqueue] using hx
          rcases hx' with h | rfl
          · exact List.mem_cons.mpr (Or.inr (hqv x h))
          · exact List.mem_cons.mpr (Or.inl rfl)

theorem ec_new_enqueued (es : EdgeList) :
    ∀ visited queue (x : Node), x ∈ (enqueueChildren visited queue es).1 →
      x ∈ visited ∨ x ∈ (enqueueChildren visited queue es).2 := by
  induction es with
  | nil => intro v q x hx; simpa [enqueueChildren] using Or.inl (by simpa [enqueueChildren] using hx)
  | cons e rest ih =>
    cases e with
    | mk w d =>
      intro v q x hx
      by_cases hd : d ∈ v
      · simpa [enqueueChildren, hd] using ih v q x (by simpa [enqueueChildren, hd] using hx)
      · simp only [enqueueChildren, hd, if_false] at hx ⊢
        rcases ih _ _ x hx with h | h
        · rcases List.mem_cons.mp h with rfl | h'
          · exact Or.inr (ec_queue_mono rest _ _ x (by simp [enqueue]))
          · exact Or.inl h'
        · exact Or.inr h

theorem ec_unseen (es : EdgeList) :
    ∀ visited queue (R : List Node), R.Nodup → (∀ x ∈ es.dests, x ∈ R) →
      unseen R (enqueueChildren visited queue es).1 + (enqueueChildren visited queue es).2.length
        = unseen R visited + queue.length := by
  induction es with
  | nil => intro v q R _ _; simp [enqueueChildren]
  | cons e rest ih =>
    cases e with
    | mk w d =>
      intro v q R hR hdest
      have hdest' : ∀ x ∈ rest.dests, x ∈ R := by
        intro x hx
        exact hdest x (by simp [EdgeList.dests, hx])
      by_cases hd : d ∈ v
      · simpa [enqueueChildren, hd] using ih v q R hR hdest'
      · simp only [enqueueChildren, hd, if_false]
        have hdR : d ∈ R := hdest d (by simp [EdgeList.dests])
        have h1 := ih (d :: v) (enqueue q d) R hR hdest'
        have h2 := unseen_insert hR hdR hd
        have h3 : (enqueue q d).length = q.length + 1 := by simp [enqueue]
        omega

theorem iterateAux_queue_sub_out (k : QueueKind) :
    ∀ (fuel : Nat) (visited queue out : List Node),
      iterateAux k fuel visited queue = some out → ∀ n ∈ queue, n ∈ out := by
  intro fuel
  induction fuel with
  | zero => intro v q out h; simp [iterateAux] at h
  | succ fuel ih =>
    intro v q out h n hn
    rcases hdq : dequeue k q with _ | ⟨cur, rest⟩
    · rw [dequeue_eq_none_iff] at hdq
      subst hdq
      simp at hn
    · rcases hec : enqueueChildren v rest cur.children with ⟨v', q'⟩
      simp only [iterateAux, hdq, hec] at h
      rcases Option.map_eq_some'.mp h with ⟨out', hout', rfl⟩
      have hperm := dequeue_perm hdq
      rcases List.mem_cons.mp (hperm.mem_iff.mp hn) with rfl | hnrest
      · exact List.mem_cons_self _ _
      · have hnq' : n ∈ q' := by
          have h' := ec_queue_mono cur.children v rest n hnrest
          rw [hec] at h'
          exact h'
        exact List.mem_cons.mpr (Or.inr (ih v' q' out' hout' n hnq'))

theorem iterateAux_out_sub (k : QueueKind) (R : List Node)
    (hclosed : ∀ n ∈ R, ∀ e ∈ n.children.toList, e.destination_node ∈ R) :
    ∀ (fuel : Nat) (visited queue out : List Node),
      iterateAux k fuel visited queue = some out →
      (∀ n ∈ queue, n ∈ R) → ∀ n ∈ out, n ∈ R := by
  intro fuel
  induction fuel with
  | zero => intro v q out h; simp [iterateAux] at h
  | succ fuel ih =>
    intro v q out h hqR n hn
    rcases hdq : dequeue k q with _ | ⟨cur, rest⟩
    · rw [dequeue_eq_none_iff] at hdq
      subst hdq
      simp only [iterateAux, dequeue, Option.some.injEq] at h
      subst h
      simp at hn
    · rcases hec : enqueueChildren v rest cur.children with ⟨v', q'⟩
      simp only [iterateAux, hdq, hec] at h
      rcases Option.map_eq_some'.mp h with ⟨out', hout', rfl⟩
      have hperm := dequeue_perm hdq
      have hcurR : cur ∈ R := hqR cur (hperm.mem_iff.mpr (List.mem_cons_self _ _))
      have hq'R : ∀ x ∈ q', x ∈ R := by
        intro x hx
        have h' := ec_queue_from cur.children v rest x (by rw [hec]; exact hx)
        rcases h' with h' | ⟨h1, _⟩
        · exact hqR x (hperm.mem_iff.mpr (List.mem_cons.mpr (Or.inr h')))
        · rw [EdgeList.dests_eq_map] at h1
          rcases List.mem_map.mp h1 with ⟨e, he, rfl⟩
          exact hclosed cur hcurR e he
      rcases List.mem_cons.mp hn with rfl | hn'
      · exact hcurR
      · exact ih v' q' out' hout' hq'R n hn'

theorem iterateAux_not_emitted (k : QueueKind) :
    ∀ (fuel : Nat) (visited queue out : List Node) (n : Node),
      iterateAux k fuel visited queue = some out →
      n ∈ visited → n ∉ queue → n ∉ out := by
  intro fuel
  induction fuel with
  | zero => intro v q out n h; simp [iterateAux] at h
  | succ fuel ih =>
    intro v q out n h hnv hnq
    rcases hdq : dequeue k q with _ | ⟨cur, rest⟩
    · rw [dequeue_eq_none_iff] at hdq
      subst hdq
      simp only [iterateAux, dequeue, Option.some.injEq] at h
      subst h
      simp
    · rcases hec : enqueueChildren v rest cur.children with ⟨v', q'⟩
      simp only [iterateAux, hdq, hec] at h
      rcases Option.map_eq_some'.mp h with ⟨out', hout', rfl⟩
      have hperm := dequeue_perm hdq
      have hncur : n ≠ cur := by
        rintro rfl
        exact hnq (hperm.mem_iff.mpr (List.mem_cons_self _ _))
      have hnv' : n ∈ v' := by
        have h' := ec_visited_mono cur.children v rest n hnv
        rw [hec] at h'
        exact h'
      have hnq' : n ∉ q' := by
        intro hx
        have h' := ec_queue_from cur.children v rest n (by rw [hec]; exact hx)
        rcases h' with h' | ⟨_, h2⟩
        · exact hnq (hperm.mem_iff.mpr (List.mem_cons.mpr (Or.inr h')))
        · exact h2 hnv
      intro hmem
      rcases List.mem_cons.mp hmem with rfl | hmem'
      · exact hncur rfl
      · exact ih v' q' out' n hout' hnv' hnq' hmem'

theorem iterateAux_nodup (k : QueueKind) :
    ∀ (fuel : Nat) (visited queue out : List Node),
      iterateAux k fuel visited queue = some out →
      queue.Nodup → (∀ x ∈ queue, x ∈ visited) → out.Nodup := by
  intro fuel
  induction fuel with
  | zero => intro v q out h; simp [iterateAux] at h
  | succ fuel ih =>
    intro v q out h hq hqv
    rcases hdq : dequeue k q with _ | ⟨cur, rest⟩
    · rw [dequeue_eq_none_iff] at hdq
      subst hdq
      simp only [iterateAux, dequeue, Option.some.injEq] at h
      subst h
      simp
    · rcases hec : enqueueChildren v rest cur.children with ⟨v', q'⟩
      simp only [iterateAux, hdq, hec] at h
      rcases Option.map_eq_some'.mp h with ⟨out', hout', rfl⟩
      have hperm := dequeue_perm hdq
      have hcons : (cur :: rest).Nodup := hperm.nodup_iff.mp hq
      rw [List.nodup_cons] at hcons
      obtain ⟨hcurrest, hrest⟩ := hcons
      have hrestv : ∀ x ∈ rest, x ∈ v := fun x hx =>
        hqv x (hperm.mem_iff.mpr (List.mem_cons.mpr (Or.inr hx)))
      have hq'nodup : q'.Nodup := by
        have h' := ec_nodup cur.children v rest hrest hrestv
        rw [hec] at h'
        exact h'
      have hq'v' : ∀ x ∈ q', x ∈ v' := by
        intro x hx
        have h' := ec_queue_subset_visited cur.children v rest hrestv x (by rw [hec]; exact hx)
        rw [hec] at h'
        exact h'
      have hcurv' : cur ∈ v' := by
        have h' := ec_visited_mono cur.children v rest cur
          (hqv cur (hperm.mem_iff.mpr (List.mem_cons_self _ _)))
        rw [hec] at h'
        exact h'
      have hcurq' : cur ∉ q' := by
        intro hx
        have h' := ec_queue_from cur.children v rest cur (by rw [hec]; exact hx)
        rcases h' with h' | ⟨_, h2⟩
        · exact hcurrest h'
        · exact h2 (hqv cur (hperm.mem_iff.mpr (List.mem_cons_self _ _)))
      rw [List.nodup_cons]
      exact ⟨iterateAux_not_emitted k fuel v' q' out' cur hout' hcurv' hcurq',
        ih v' q' out' hout' hq'nodup hq'v'⟩

theorem iterateAux_children_covered (k : QueueKind) :
    ∀ (fuel : Nat) (visited queue out : List Node),
      iterateAux k fuel visited queue = some out →
      ∀ m ∈ out, ∀ e ∈ m.children.toList,
        e.destination_node ∈ visited ∨ e.destination_node ∈ out := by
  intro fuel
  induction fuel with
  | zero => intro v q out h; simp [iterateAux] at h
  | succ fuel ih =>
    intro v q out h m hm e he
    rcases hdq : dequeue k q with _ | ⟨cur, rest⟩
    · rw [dequeue_eq_none_iff] at hdq
      subst hdq
      simp only [iterateAux, dequeue, Option.some.injEq] at h
      subst h
      simp at hm
    · rcases hec : enqueueChildren v rest cur.children with ⟨v', q'⟩
      simp only [iterateAux, hdq, hec] at h
      rcases Option.map_eq_some'.mp h with ⟨out', hout', rfl⟩
      have hv'split : ∀ x, x ∈ v' → x ∈ v ∨ x ∈ out' := by
        intro x hx
        have h' := ec_new_enqueued cur.children v rest x (by rw [hec]; exact hx)
        rw [hec] at h'
        rcases h' with h' | h'
        · exact Or.inl h'
        · exact Or.inr (iterateAux_queue_sub_out k fuel v' q' out' hout' x h')
      rcases List.mem_cons.mp hm with rfl | hm'
      · have hcov := ec_covers m.children v rest e he
        rw [hec] at hcov
        rcases hv'split _ hcov with h' | h'
        · exact Or.inl h'
        · exact Or.inr (List.mem_cons.mpr (Or.inr h'))
      · rcases ih v' q' out' hout' m hm' e he with h' | h'
        · rcases hv'split _ h' with h'' | h''
          · exact Or.inl h''
          · exact Or.inr (List.mem_cons.mpr (Or.inr h''))
        · exact Or.inr (List.mem_cons.mpr (Or.inr h'))

theorem iterateAux_isSome (k : QueueKind) :
    ∀ (fuel : Nat) (R visited queue : List Node),
      R.Nodup →
      (∀ n ∈ R, ∀ e ∈ n.children.toList, e.destination_node ∈ R) →
      (∀ n ∈ queue, n ∈ R) →
      unseen R visited + queue.length < fuel →
      (iterateAux k fuel visited queue).isSome := by
  intro fuel
  induction fuel with
  | zero => intro R v q _ _ _ hlt; exact absurd hlt (Nat.not_lt_zero _)
  | succ fuel ih =>
    intro R v q hR hclosed hqR hlt
    rcases hdq : dequeue k q with _ | ⟨cur, rest⟩
    · simp [iterateAux, hdq]
    · rcases hec : enqueueChildren v rest cur.children with ⟨v', q'⟩
      simp only [iterateAux, hdq, hec, Option.isSome_map']
      have hperm := dequeue_perm hdq
      have hcurR : cur ∈ R := hqR cur (hperm.mem_iff.mpr (List.mem_cons_self _ _))
      have hdests : ∀ x ∈ cur.children.dests, x ∈ R := by
        intro x hx
        rw [EdgeList.dests_eq_map] at hx
        rcases List.mem_map.mp hx with ⟨e, he, rfl⟩
        exact hclosed cur hcurR e he
      have hq'R : ∀ x ∈ q', x ∈ R := by
        intro x hx
        have h' := ec_queue_from cur.children v rest x (by rw [hec]; exact hx)
        rcases h' with h' | ⟨h1, _⟩
        · exact hqR x (hperm.mem_iff.mpr (List.mem_cons.mpr (Or.inr h')))
        · exact hdests x h1
      have hmeas := ec_unseen cur.children v rest R hR hdests
      rw [hec] at hmeas
      dsimp only at hmeas
      have hlen : q.length = rest.length + 1 := by
        have h' := hperm.length_eq
        simpa using h'
      exact ih R v' q' hR hclosed hq'R (by omega)

theorem iterate_all_isSome (k : QueueKind) (s : Node) : (iterate_all k s).isSome := by
  unfold iterate_all
  refine iterateAux_isSome k _ s.subnodes.dedup [s] [s] (List.nodup_dedup _) ?_ ?_ ?_
  · intro n hn e he
    rw [List.mem_dedup] at hn ⊢
    exact Node.subnodes_closed s n hn e he
  · intro n hn
    rw [List.mem_singleton] at hn
    rw [hn, List.mem_dedup]
    exact Node.self_mem_subnodes s
  · have h1 : unseen s.subnodes.dedup [s] < s.subnodes.dedup.length := by
      unfold unseen
      refine List.length_filter_lt_length_iff_exists.mpr ?_
      exact ⟨s, by rw [List.mem_dedup]; exact Node.self_mem_subnodes s, by simp⟩
    have h2 : s.subnodes.dedup.length ≤ s.subnodes.length := (List.dedup_sublist _).length_le
    simp only [List.length_singleton]
    omega

theorem iterate_all_eq_some (k : QueueKind) (s : Node) :
    iterate_all k s = some (visitSeq k s) := by
  have h := iterate_all_isSome k s
  rcases ho : iterate_all k s with _ | v
  · rw [ho] at h
    simp at h
  · simp [visitSeq, ho]

theorem visitSeq_nodup (k : QueueKind) (s : Node) : (visitSeq k s).Nodup := by
  have hsome : iterateAux k (s.subnodes.length + 1) [s] [s] = some (visitSeq k s) :=
    iterate_all_eq_some k s
  exact iterateAux_nodup k _ [s] [s] _ hsome (by simp) (by simp)

/-- The traversal's call sequence holds exactly the nodes reachable from the
start node, whatever the frontier discipline. -/
theorem mem_visitSeq_iff (k : QueueKind) (s n : Node) :
    n ∈ visitSeq k s ↔ Reaches s n := by
  have hsome : iterateAux k (s.subnodes.length + 1) [s] [s] = some (visitSeq k s) :=
    iterate_all_eq_some k s
  constructor
  · intro hn
    rw [reaches_iff_mem_subnodes]
    refine iterateAux_out_sub k s.subnodes (Node.subnodes_closed s) _ [s] [s] _ hsome ?_ n hn
    intro x hx
    rw [List.mem_singleton] at hx
    rw [hx]
    exact Node.self_mem_subnodes s
  · intro hr
    have hstart : s ∈ visitSeq k s :=
      iterateAux_queue_sub_out k _ [s] [s] _ hsome s (by simp)
    induction hr with
    | refl => exact hstart
    | step hm he ih =>
      rcases iterateAux_children_covered k _ [s] [s] _ hsome _ ih _ he with h | h
      · rw [List.mem_singleton] at h
        rw [h]
        exact hstart
      · exact h

/-- C1: for every graph and start node `s`, the visitor call sequence of both
`dfs(s, f)` and `bfs(s, f)` contains exactly the nodes reachable from `s`,
each exactly once: no repeats, and no unreachable node ever appears. -/
theorem visit_once_exactly_reachable (s : Node) :
    (((Graph.dfs s).getD []).Nodup ∧ ∀ n, n ∈ (Graph.dfs s).getD [] ↔ Reaches s n) ∧
    (((Graph.bfs s).getD []).Nodup ∧ ∀ n, n ∈ (Graph.bfs s).getD [] ↔ Reaches s n) :=
  ⟨⟨visitSeq_nodup QueueKind.lifo s, fun n => mem_visitSeq_iff QueueKind.lifo s n⟩,
   ⟨visitSeq_nodup QueueKind.fifo s, fun n => mem_visitSeq_iff QueueKind.fifo s n⟩⟩

/-- C3: for every finite graph, `dfs` and `bfs` terminate: the while loop of
`iterate_all` performs finitely many iterations (the fuel-indexed interpreter
reaches the empty-frontier exit, rather than running out of fuel). -/
theorem dfs_bfs_terminate (s : Node) : (Graph.dfs s).isSome ∧ (Graph.bfs s).isSome :=
  ⟨iterate_all_isSome QueueKind.lifo s, iterate_all_isSome QueueKind.fifo s⟩

theorem dequeue_lifo_ne {l : List Node} (h : l ≠ []) :
    dequeue QueueKind.lifo l = some (l.getLast h, l.dropLast) := by
  cases l with
  | nil => exact absurd rfl h
  | cons a t => rfl

theorem dequeue_lifo_enqueue (q : List Node) (n : Node) :
    dequeue QueueKind.lifo (enqueue q n) = some (n, q) := by
  rw [show enqueue q n = q ++ [n] from rfl, dequeue_lifo_ne (by simp)]
  rw [List.getLast_concat, List.dropLast_concat]

/-- C5: `dfs` and `bfs` both delegate to the one shared `iterate_all`,
differing only in the frontier: `dfs` passes the Lifo queue (dequeue returns
the most recently enqueued node), `bfs` the Fifo queue (dequeue returns the
oldest enqueued node, the head of the enqueue-ordered list). -/
theorem dfs_bfs_delegate_to_iterate_all :
    (∀ s : Node, Graph.dfs s = iterate_all QueueKind.lifo s) ∧
    (∀ s : Node, Graph.bfs s = iterate_all QueueKind.fifo s) ∧
    (∀ (q : List Node) (n : Node), dequeue QueueKind.lifo (enqueue q n) = some (n, q)) ∧
    (∀ (q : List Node) (n : Node), dequeue QueueKind.fifo (n :: q) = some (n, q)) :=
  ⟨fun _ => rfl, fun _ => rfl, dequeue_lifo_enqueue, fun _ _ => rfl⟩

/-- C8: for every start node with an empty edge list, both `dfs` and `bfs`
call the visitor exactly once, on that node, and terminate at once. -/
theorem empty_children_single_visit (s : Node) (h : s.children = EdgeList.nil) :
    Graph.dfs s = some [s] ∧ Graph.bfs s = some [s] := by
  cases s with
  | mk i cs =>
    simp only [Node.children] at h
    subst h
    exact ⟨rfl, rfl⟩

/-- Witness for `empty_children_single_visit` at the concrete node `42`. -/
theorem empty_children_single_visit_witness :
    (Node.mk 42 EdgeList.nil).children = EdgeList.nil ∧
      (Graph.dfs (Node.mk 42 EdgeList.nil) = some [Node.mk 42 EdgeList.nil] ∧
       Graph.bfs (Node.mk 42 EdgeList.nil) = some [Node.mk 42 EdgeList.nil]) :=
  ⟨rfl, empty_children_single_visit (Node.mk 42 EdgeList.nil) rfl⟩


/-- C6: on the test graph, BFS from node 1 calls the visitor in exactly the
order 1, 2, 3, 4, 5. -/
theorem bfs_test_graph_order :
    Graph.bfs testN1 = some [testN1, testN2, testN3, testN4, testN5] ∧
    ((Graph.bfs testN1).getD []).map Node.id = [1, 2, 3, 4, 5] := by
  constructor <;> decide

/-- C7 counterexample: on the test graph, the DFS call sequence is
[1, 3, 5, 4, 2]; its last element is node 2, not node 5 as the claim states
(node 5 is visited third). -/
theorem dfs_test_graph_last_not_five :
    ((Graph.dfs testN1).getD []).map Node.id = [1, 3, 5, 4, 2] ∧
    ¬ (((Graph.dfs testN1).getD []).map Node.id).getLast? = some 5 := by
  constructor <;> decide

/-- C7 amended: on the test graph, DFS from node 1 (Lifo frontier, children
enqueued in edge-list order, last-enqueued-dequeued-first) calls the visitor
in exactly the order 1, 3, 5, 4, 2: node 1 first, node 2 last. -/
theorem dfs_test_graph_order :
    Graph.dfs testN1 = some [testN1, testN3, testN5, testN4, testN2] ∧
    ((Graph.dfs testN1).getD []).map Node.id = [1, 3, 5, 4, 2] := by
  constructor <;> decide


/-- C2 failing input: the visited set uses the derived structural equality of
`Node`, not the id alone, so the two distinct id-7 node objects are kept as
two entries and the visitor runs twice for id 7. -/
theorem visited_set_not_id_keyed :
    dupId7a.id = dupId7b.id ∧ dupId7a ≠ dupId7b ∧
    ((Graph.bfs dupIdStart).getD []).map Node.id = [0, 7, 7, 8] ∧
    (((Graph.bfs dupIdStart).getD []).map Node.id).count 7 = 2 := by
  refine ⟨?_, ?_, ?_, ?_⟩ <;> decide


/-- C9 failing input: `wGraphA` and `wGraphB` differ only in one edge weight
(2 versus 1), yet the traversal visits id 7 twice in one and once in the
other, because the visited `HashSet` hashes whole node structures, edge
weights included: edge weights do influence the call sequence. -/
theorem traversal_depends_on_weights :
    ((Graph.bfs wGraphA).getD []).map Node.id = [0, 7, 7, 8] ∧
    ((Graph.bfs wGraphB).getD []).map Node.id = [0, 7, 8] ∧
    ((Graph.dfs wGraphA).getD []).map Node.id ≠ ((Graph.dfs wGraphB).getD []).map Node.id := by
  refine ⟨?_, ?_, ?_⟩ <;> decide

theorem ball_succ_sub (s : Node) (k : Nat) : ∀ x ∈ ball s k, x ∈ ball s (k + 1) := by
  intro x hx
  simp only [ball, List.mem_append]
  exact Or.inl hx

theorem ball_mono (s : Node) {j k : Nat} (h : j ≤ k) : ∀ x ∈ ball s j, x ∈ ball s k := by
  induction h with
  | refl => exact fun x hx => hx
  | step _ ih => exact fun x hx => ball_succ_sub s _ x (ih x hx)

theorem child_mem_ball {s a : Node} {d : Nat} (ha : a ∈ ball s d) :
    ∀ x ∈ a.children.dests, x ∈ ball s (d + 1) := by
  intro x hx
  simp only [ball, List.mem_append, List.mem_flatMap]
  exact Or.inr ⟨a, ha, hx⟩

theorem distEq_unique {s n : Node} {k k' : Nat}
    (h : distEq s n k) (h' : distEq s n k') : k = k' := by
  rcases Nat.lt_trichotomy k k' with hlt | heq | hlt
  · exact absurd h.1 (h'.2 k hlt)
  · exact heq
  · exact absurd h'.1 (h.2 k' hlt)

theorem distEq_succ_of_new {s c : Node} {d : Nat}
    (hin : c ∈ ball s (d + 1)) (hout : c ∉ ball s d) : distEq s c (d + 1) := by
  refine ⟨hin, ?_⟩
  intro j hj hmem
  exact hout (ball_mono s (Nat.lt_succ_iff.mp hj) c hmem)

theorem ball_sub_subnodes (s : Node) : ∀ (k : Nat), ∀ x ∈ ball s k, x ∈ s.subnodes := by
  intro k
  induction k with
  | zero =>
    intro x hx
    rw [show ball s 0 = [s] from rfl, List.mem_singleton] at hx
    rw [hx]
    exact Node.self_mem_subnodes s
  | succ k ih =>
    intro x hx
    simp only [ball, List.mem_append, List.mem_flatMap] at hx
    rcases hx with hx | ⟨m, hm, hx⟩
    · exact ih x hx
    · rw [EdgeList.dests_eq_map] at hx
      rcases List.mem_map.mp hx with ⟨e, he, rfl⟩
      exact Node.subnodes_closed s m (ih m hm) e he


theorem bfsInv_shift {s : Node} {d : Nat} {visited queue : List Node}
    (h : bfsInv s d visited queue) (hq : ∀ b ∈ queue, distEq s b (d + 1)) :
    bfsInv s (d + 1) visited queue := by
  obtain ⟨_, hball, hP, hqv⟩ := h
  refine ⟨⟨queue, [], by simp, hq, by simp⟩, ?_, hP, hqv⟩
  intro x hx
  simp only [ball, List.mem_append, List.mem_flatMap] at hx
  rcases hx with hx | ⟨m, hm, hx⟩
  · exact hball x hx
  · have hmv : m ∈ visited := hball m hm
    have hmnq : m ∉ queue := by
      intro hmem
      exact (hq m hmem).2 d (Nat.lt_succ_self d) hm
    rcases hP m hmv with hmem | hch
    · exact absurd hmem hmnq
    · rw [EdgeList.dests_eq_map] at hx
      rcases List.mem_map.mp hx with ⟨e, he, rfl⟩
      exact hch e he

/-- The children loop only ever appends to the queue: the queue after
expansion is the old queue followed by the newly discovered children. -/
theorem ec_queue_eq_append (es : EdgeList) :
    ∀ visited queue, ∃ news, (enqueueChildren visited queue es).2 = queue ++ news ∧
      ∀ x ∈ news, x ∈ es.dests ∧ x ∉ visited := by
  induction es with
  | nil => intro v q; exact ⟨[], by simp [enqueueChildren], by simp⟩
  | cons e rest ih =>
    cases e with
    | mk w d =>
      intro v q
      by_cases hd : d ∈ v
      · obtain ⟨news, h1, h2⟩ := ih v q
        refine ⟨news, by simp only [enqueueChildren, hd, if_true]; exact h1, ?_⟩
        intro x hx
        obtain ⟨hx1, hx2⟩ := h2 x hx
        exact ⟨by simp [EdgeList.dests, hx1], hx2⟩
      · obtain ⟨news, h1, h2⟩ := ih (d :: v) (enqueue q d)
        refine ⟨d :: news, ?_, ?_⟩
        · simp only [enqueueChildren, hd, if_false]
          rw [h1]
          simp [enqueue]
        · intro x hx
          rcases List.mem_cons.mp hx with rfl | hx
          · exact ⟨by simp [EdgeList.dests], hd⟩
          · obtain ⟨hx1, hx2⟩ := h2 x hx
            refine ⟨by simp [EdgeList.dests, hx1], ?_⟩
            intro hxv
            exact hx2 (List.mem_cons.mpr (Or.inr hxv))

/-- Expansion of a dequeued node preserves the BFS level invariant. -/
theorem bfsInv_step {s c : Node} {d : Nat} {visited rest : List Node}
    (hinv : bfsInv s d visited (c :: rest)) (hc : distEq s c d) :
    bfsInv s d (enqueueChildren visited rest c.children).1
      (enqueueChildren visited rest c.children).2 := by
  obtain ⟨⟨A, B, hAB, hA, hB⟩, hball, hP, hqv⟩ := hinv
  obtain ⟨A', rfl, hrest⟩ : ∃ A', A = c :: A' ∧ rest = A' ++ B := by
    cases A with
    | nil =>
      simp only [List.nil_append] at hAB
      have hcB : distEq s c (d + 1) := hB c (by rw [← hAB]; exact List.mem_cons_self _ _)
      exact absurd (distEq_unique hc hcB) (by omega)
    | cons a A' =>
      simp only [List.cons_append] at hAB
      injection hAB with h1 h2
      exact ⟨A', by rw [h1], h2⟩
  obtain ⟨news, hq', hnews⟩ := ec_queue_eq_append c.children visited rest
  refine ⟨⟨A', B ++ news, ?_, ?_, ?_⟩, ?_, ?_, ?_⟩
  · rw [hq', hrest, List.append_assoc]
  · intro a ha
    exact hA a (List.mem_cons.mpr (Or.inr ha))
  · intro b hb
    rcases List.mem_append.mp hb with hb | hb
    · exact hB b hb
    · obtain ⟨hbdest, hbnv⟩ := hnews b hb
      have hbball : b ∈ ball s (d + 1) := child_mem_ball hc.1 b hbdest
      have hbout : b ∉ ball s d := fun hmem => hbnv (hball b hmem)
      exact distEq_succ_of_new hbball hbout
  · intro x hx
    exact ec_visited_mono c.children visited rest x (hball x hx)
  · intro n hn
    rcases ec_new_enqueued c.children visited rest n hn with hnv | hnq'
    · rcases hP n hnv with hmem | hch
      · rcases List.mem_cons.mp hmem with rfl | hmem
        · right
          intro e he
          exact ec_covers n.children visited rest e he
        · left
          exact ec_queue_mono c.children visited rest n hmem
      · right
        intro e he
        exact ec_visited_mono c.children visited rest _ (hch e he)
    · left
      exact hnq'
  · have hrv : ∀ x ∈ rest, x ∈ visited := fun x hx => hqv x (List.mem_cons.mpr (Or.inr hx))
    exact ec_queue_subset_visited c.children visited rest hrv

theorem iterateAux_fifo_dist_lb (s : Node) :
    ∀ (fuel d : Nat) (visited queue out : List Node),
      iterateAux QueueKind.fifo fuel visited queue = some out →
      bfsInv s d visited queue →
      ∀ y ∈ out, ∀ ky, distEq s y ky → d ≤ ky := by
  intro fuel
  induction fuel with
  | zero => intro d v q out h _; simp [iterateAux] at h
  | succ fuel ih =>
    intro d v q out h hinv
    rcases q with _ | ⟨c, rest⟩
    · simp only [iterateAux, dequeue, Option.some.injEq] at h
      subst h
      intro y hy
      simp at hy
    · obtain ⟨δ, hle, hinv', hc⟩ :
          ∃ δ, d ≤ δ ∧ bfsInv s δ v (c :: rest) ∧ distEq s c δ := by
        obtain ⟨A, B, hAB, hA, hB⟩ := hinv.1
        cases A with
        | nil =>
          simp only [List.nil_append] at hAB
          subst hAB
          exact ⟨d + 1, Nat.le_succ d, bfsInv_shift hinv hB, hB c (List.mem_cons_self _ _)⟩
        | cons a A' =>
          simp only [List.cons_append] at hAB
          injection hAB with h1 h2
          subst h1
          exact ⟨d, Nat.le_refl d, hinv, hA c (List.mem_cons_self _ _)⟩
      rcases hec : enqueueChildren v rest c.children with ⟨v', q'⟩
      have hstep := bfsInv_step hinv' hc
      rw [hec] at hstep
      simp only [iterateAux, dequeue, hec] at h
      rcases Option.map_eq_some'.mp h with ⟨out', hout', rfl⟩
      intro y hy ky hky
      rcases List.mem_cons.mp hy with rfl | hy'
      · have hkyδ : ky = δ := distEq_unique hky hc
        omega
      · have := ih δ v' q' out' hout' hstep y hy' ky hky
        omega

theorem iterateAux_fifo_pairwise (s : Node) :
    ∀ (fuel d : Nat) (visited queue out : List Node),
      iterateAux QueueKind.fifo fuel visited queue = some out →
      bfsInv s d visited queue →
      out.Pairwise (fun x y => ∀ kx ky, distEq s x kx → distEq s y ky → kx ≤ ky) := by
  intro fuel
  induction fuel with
  | zero => intro d v q out h _; simp [iterateAux] at h
  | succ fuel ih =>
    intro d v q out h hinv
    rcases q with _ | ⟨c, rest⟩
    · simp only [iterateAux, dequeue, Option.some.injEq] at h
      subst h
      exact List.Pairwise.nil
    · obtain ⟨δ, hle, hinv', hc⟩ :
          ∃ δ, d ≤ δ ∧ bfsInv s δ v (c :: rest) ∧ distEq s c δ := by
        obtain ⟨A, B, hAB, hA, hB⟩ := hinv.1
        cases A with
        | nil =>
          simp only [List.nil_append] at hAB
          subst hAB
          exact ⟨d + 1, Nat.le_succ d, bfsInv_shift hinv hB, hB c (List.mem_cons_self _ _)⟩
        | cons a A' =>
          simp only [List.cons_append] at hAB
          injection hAB with h1 h2
          subst h1
          exact ⟨d, Nat.le_refl d, hinv, hA c (List.mem_cons_self _ _)⟩
      rcases hec : enqueueChildren v rest c.children with ⟨v', q'⟩
      have hstep := bfsInv_step hinv' hc
      rw [hec] at hstep
      simp only [iterateAux, dequeue, hec] at h
      rcases Option.map_eq_some'.mp h with ⟨out', hout', rfl⟩
      refine List.Pairwise.cons ?_ (ih δ v' q' out' hout' hstep)
      intro y hy kx ky hkx hky
      have h1 : kx = δ := distEq_unique hkx hc
      have h2 : δ ≤ ky := iterateAux_fifo_dist_lb s fuel δ v' q' out' hout' hstep y hy ky hky
      omega

theorem bfsInv_init (s : Node) : bfsInv s 0 [s] [s] := by
  refine ⟨⟨[s], [], by simp, ?_, by simp⟩, ?_, ?_, ?_⟩
  · intro a ha
    rw [List.mem_singleton] at ha
    subst ha
    exact ⟨List.mem_singleton.mpr rfl, fun j hj => absurd hj (Nat.not_lt_zero j)⟩
  · intro x hx
    exact hx
  · intro n hn
    exact Or.inl hn
  · intro n hn
    exact hn

/-- The BFS call sequence is sorted by graph distance from the start. -/
theorem visitSeq_fifo_pairwise_dist (s : Node) :
    (visitSeq QueueKind.fifo s).Pairwise
      (fun x y => ∀ kx ky, distEq s x kx → distEq s y ky → kx ≤ ky) := by
  have hsome : iterateAux QueueKind.fifo (s.subnodes.length + 1) [s] [s] = some (visitSeq QueueKind.fifo s) :=
    iterate_all_eq_some QueueKind.fifo s
  exact iterateAux_fifo_pairwise s _ 0 [s] [s] _ hsome (bfsInv_init s)

/-- C4: for every graph, start node `s` and level `kd`, `bfs` calls the
visitor on every node at graph-distance `kd` from `s` before calling it on
any node at graph-distance `kd + 1`: both nodes appear in the sequence, and
every position of the distance-`kd` node precedes every position of the
distance-`kd + 1` node. -/
theorem bfs_level_order (s a b : Node) (kd : Nat)
    (ha : distEq s a kd) (hb : distEq s b (kd + 1)) :
    a ∈ (Graph.bfs s).getD [] ∧ b ∈ (Graph.bfs s).getD [] ∧
    ∀ (i j : Nat), ((Graph.bfs s).getD [])[i]? = some a →
      ((Graph.bfs s).getD [])[j]? = some b → i < j := by
  have hmema : a ∈ visitSeq QueueKind.fifo s := by
    rw [mem_visitSeq_iff, reaches_iff_mem_subnodes]
    exact ball_sub_subnodes s kd a ha.1
  have hmemb : b ∈ visitSeq QueueKind.fifo s := by
    rw [mem_visitSeq_iff, reaches_iff_mem_subnodes]
    exact ball_sub_subnodes s (kd + 1) b hb.1
  refine ⟨hmema, hmemb, ?_⟩
  intro i j hi hj
  have hi' : (visitSeq QueueKind.fifo s)[i]? = some a := hi
  have hj' : (visitSeq QueueKind.fifo s)[j]? = some b := hj
  obtain ⟨hilen, hia⟩ := List.getElem?_eq_some_iff.mp hi'
  obtain ⟨hjlen, hjb⟩ := List.getElem?_eq_some_iff.mp hj'
  have hpw := visitSeq_fifo_pairwise_dist s
  rw [List.pairwise_iff_getElem] at hpw
  rcases Nat.lt_trichotomy i j with hlt | heq | hlt
  · exact hlt
  · exfalso
    subst heq
    have hab : a = b := hia.symm.trans hjb
    rw [hab] at ha
    have := distEq_unique ha hb
    omega
  · exfalso
    have h4 := hpw j i hjlen hilen hlt (kd + 1) kd (by rw [hjb]; exact hb) (by rw [hia]; exact ha)
    omega

/-- Witness for `bfs_level_order` on the test graph: node 2 is at distance 1
and node 4 at distance 2 from node 1. -/
theorem bfs_level_order_witness :
    distEq testN1 testN2 1 ∧ distEq testN1 testN4 2 ∧
      (testN2 ∈ (Graph.bfs testN1).getD [] ∧ testN4 ∈ (Graph.bfs testN1).getD [] ∧
       ∀ (i j : Nat), ((Graph.bfs testN1).getD [])[i]? = some testN2 →
         ((Graph.bfs testN1).getD [])[j]? = some testN4 → i < j) :=
  ⟨by decide, by decide, bfs_level_order testN1 testN2 testN4 1 (by decide) (by decide)⟩

end NodeRef

/-- A nonempty queue dequeues its last element under the Lifo discipline. -/
theorem dequeue_lifo_of_ne {α : Type} {l : List α} (h : l ≠ []) :
    dequeue QueueKind.lifo l = some (l.getLast h, l.dropLast) := by
  cases l with
  | nil => exact absurd rfl h
  | cons a t => rfl

/-- `dequeue` commutes with mapping a function over the queue, whatever the
discipline. -/
theorem dequeue_map {α β : Type} (f : α → β) (k : QueueKind) (q : List α) :
    dequeue k (q.map f) = (dequeue k q).map (fun p => (f p.1, p.2.map f)) := by
  cases q with
  | nil => cases k <;> rfl
  | cons a t =>
    cases k with
    | fifo => rfl
    | lifo =>
      rw [dequeue_lifo_of_ne (l := (a :: t).map f) (by simp),
        dequeue_lifo_of_ne (l := a :: t) (by simp)]
      simp only [Option.map_some']
      refine congrArg some (Prod.ext ?_ ?_)
      · exact List.getLast_map f (a :: t) _
      · exact (List.map_dropLast f (a :: t)).symm

namespace NodeRc

/-- Structural induction on `node_rc` node trees. -/
theorem Node.inductRc (P : Node → Prop)
    (h : ∀ i cs, (∀ e ∈ cs.toList, P e.destination_node.as_ref) → P (.mk i cs)) :
    ∀ n, P n := by
  have key : ∀ cs : EdgeList, cs.AllDests P → ∀ e ∈ cs.toList, P e.destination_node.as_ref := by
    intro cs
    induction cs with
    | nil => intro _ e he; simp [EdgeList.toList] at he
    | cons e rest ih =>
      cases e with
      | mk w rc =>
        cases rc with
        | mk d =>
          intro hall e' he'
          simp only [EdgeList.toList, List.mem_cons] at he'
          rcases he' with rfl | he'
          · exact hall.1
          · exact ih hall.2 e' he'
  exact fun n => Node.inductAux P (fun i cs hall => h i cs (key cs hall)) n

theorem toRef_ofRef : ∀ t, toRef (ofRef t) = t := by
  have key : ∀ cs : NodeRef.EdgeList,
      (∀ e ∈ cs.toList, toRef (ofRef e.destination_node) = e.destination_node) →
      toRefEdges (ofRefEdges cs) = cs := by
    intro cs
    induction cs with
    | nil => intro _; rfl
    | cons e rest ihr =>
      intro h
      cases e with
      | mk w d =>
        have hd := h (.mk w d) (by simp [NodeRef.EdgeList.toList])
        simp only [NodeRef.Edge.destination_node] at hd
        simp only [ofRefEdges, toRefEdges, hd]
        rw [ihr (fun e he => h e (by simp [NodeRef.EdgeList.toList, he]))]
  refine NodeRef.Node.induct _ ?_
  intro i cs ih
  simp only [ofRef, toRef]
  rw [key cs ih]

theorem ofRef_toRef : ∀ n, ofRef (toRef n) = n := by
  have key : ∀ cs : EdgeList,
      (∀ e ∈ cs.toList, ofRef (toRef e.destination_node.as_ref) = e.destination_node.as_ref) →
      ofRefEdges (toRefEdges cs) = cs := by
    intro cs
    induction cs with
    | nil => intro _; rfl
    | cons e rest ihr =>
      intro h
      cases e with
      | mk w rc =>
        cases rc with
        | mk d =>
          have hd := h (.mk w (.mk d)) (by simp [EdgeList.toList])
          simp only [Edge.destination_node, Rc.as_ref] at hd
          simp only [toRefEdges, ofRefEdges, hd]
          rw [ihr (fun e he => h e (by simp [EdgeList.toList, he]))]
  refine Node.inductRc _ ?_
  intro i cs ih
  simp only [toRef, ofRef]
  rw [key cs ih]

theorem toRef_inj {a b : Node} (h : toRef a = toRef b) : a = b := by
  have h' := congrArg ofRef h
  rwa [ofRef_toRef, ofRef_toRef] at h'

theorem id_toRef (n : Node) : (toRef n).id = n.id := by
  cases n
  rfl

theorem children_toRef (n : Node) : (toRef n).children = toRefEdges n.children := by
  cases n
  rfl

theorem subnodes_toRef : ∀ n : Node, (toRef n).subnodes = n.subnodes.map toRef := by
  have key : ∀ cs : EdgeList,
      (∀ e ∈ cs.toList, (toRef e.destination_node.as_ref).subnodes
        = e.destination_node.as_ref.subnodes.map toRef) →
      (toRefEdges cs).subnodesList = cs.subnodesList.map toRef := by
    intro cs
    induction cs with
    | nil => intro _; rfl
    | cons e rest ihr =>
      intro h
      cases e with
      | mk w rc =>
        cases rc with
        | mk d =>
          have hd := h (.mk w (.mk d)) (by simp [EdgeList.toList])
          simp only [Edge.destination_node, Rc.as_ref] at hd
          simp only [toRefEdges, NodeRef.EdgeList.subnodesList, EdgeList.subnodesList,
            List.map_append, hd]
          rw [ihr (fun e he => h e (by simp [EdgeList.toList, he]))]
  refine Node.inductRc _ ?_
  intro i cs ih
  simp only [toRef, Node.subnodes, NodeRef.Node.subnodes, List.map_cons]
  rw [key cs ih]

/-- The expansion step of the two modules simulates under `toRef`. -/
theorem ec_toRef (es : EdgeList) :
    ∀ visited queue,
      NodeRef.enqueueChildren (visited.map toRef) (queue.map toRef) (toRefEdges es)
        = ((enqueueChildren visited queue es).1.map toRef,
           (enqueueChildren visited queue es).2.map toRef) := by
  induction es with
  | nil => intro v q; rfl
  | cons e rest ih =>
    cases e with
    | mk w rc =>
      cases rc with
      | mk d =>
        intro v q
        by_cases hd : d ∈ v
        · have hd' : toRef d ∈ v.map toRef := List.mem_map_of_mem _ hd
          simp only [toRefEdges, NodeRef.enqueueChildren, enqueueChildren, Rc.as_ref,
            hd, hd', if_true]
          exact ih v q
        · have hd' : toRef d ∉ v.map toRef := by
            intro hmem
            rcases List.mem_map.mp hmem with ⟨x, hx, hxe⟩
            exact hd (toRef_inj hxe ▸ hx)
          simp only [toRefEdges, NodeRef.enqueueChildren, enqueueChildren, Rc.as_ref,
            hd, hd', if_false]
          have hmapq : (enqueue q d).map toRef = enqueue (q.map toRef) (toRef d) := by
            simp [enqueue]
          rw [show toRef d :: v.map toRef = (d :: v).map toRef from rfl, ← hmapq]
          exact ih (d :: v) (enqueue q d)

theorem iterateAux_toRef (k : QueueKind) :
    ∀ (fuel : Nat) (visited queue : List Node),
      NodeRef.iterateAux k fuel (visited.map toRef) (queue.map toRef)
        = (iterateAux k fuel visited queue).map (List.map toRef) := by
  intro fuel
  induction fuel with
  | zero => intro v q; rfl
  | succ fuel ih =>
    intro v q
    rcases hdq : dequeue k q with _ | ⟨cur, rest⟩
    · have hdq' : dequeue k (q.map toRef) = none := by
        rw [dequeue_map toRef k q, hdq]
        rfl
      simp only [NodeRef.iterateAux, iterateAux, hdq, hdq']
      rfl
    · have hdq' : dequeue k (q.map toRef) = some (toRef cur, rest.map toRef) := by
        rw [dequeue_map toRef k q, hdq]
        rfl
      rcases hec : enqueueChildren v rest cur.children with ⟨v', q'⟩
      have hec' := ec_toRef cur.children v rest
      rw [hec] at hec'
      have hec'' : NodeRef.enqueueChildren (v.map toRef) (rest.map toRef)
          (toRef cur).children = (v'.map toRef, q'.map toRef) := by
        rw [children_toRef]
        exact hec'
      simp only [NodeRef.iterateAux, iterateAux, hdq, hdq', hec, hec'']
      rw [ih v' q']
      cases iterateAux k fuel v' q' <;> rfl

theorem iterate_all_toRef (k : QueueKind) (s : Node) :
    NodeRef.iterate_all k (toRef s) = (iterate_all k s).map (List.map toRef) := by
  unfold NodeRef.iterate_all iterate_all
  have hlen : (toRef s).subnodes.length = s.subnodes.length := by
    rw [subnodes_toRef]
    exact List.length_map _ _
  rw [hlen]
  have h := iterateAux_toRef k (s.subnodes.length + 1) [s] [s]
  simpa using h

end NodeRc

/-- C10: the shared-ownership module (`node_rc`) and the borrowed-reference
module (`node_ref`) implement the same traversal.  `NodeRc.toRef` is the
evident id-, weight- and shape-preserving correspondence (a bijection:
`NodeRc.ofRef` inverts it, so every `node_ref` graph is covered).  Under it,
`dfs` agrees with `dfs` and `bfs` with `bfs`, both as sequences of
corresponding nodes and as sequences of visited node ids. -/
theorem rc_ref_same_traversal :
    (∀ s : NodeRc.Node,
      NodeRef.Graph.dfs (NodeRc.toRef s) = (NodeRc.Graph.dfs s).map (List.map NodeRc.toRef) ∧
      NodeRef.Graph.bfs (NodeRc.toRef s) = (NodeRc.Graph.bfs s).map (List.map NodeRc.toRef) ∧
      ((NodeRef.Graph.dfs (NodeRc.toRef s)).getD []).map NodeRef.Node.id
        = ((NodeRc.Graph.dfs s).getD []).map NodeRc.Node.id ∧
      ((NodeRef.Graph.bfs (NodeRc.toRef s)).getD []).map NodeRef.Node.id
        = ((NodeRc.Graph.bfs s).getD []).map NodeRc.Node.id) ∧
    (∀ t : NodeRef.Node, NodeRc.toRef (NodeRc.ofRef t) = t) := by
  have hid : ∀ (o : Option (List NodeRc.Node)),
      ((o.map (List.map NodeRc.toRef)).getD []).map NodeRef.Node.id
        = (o.getD []).map NodeRc.Node.id := by
    intro o
    cases o with
    | none => rfl
    | some l =>
      simp only [Option.map_some', Option.getD_some, List.map_map]
      exact List.map_congr_left (fun n _ => NodeRc.id_toRef n)
  refine ⟨?_, NodeRc.toRef_ofRef⟩
  intro s
  have hdfs := NodeRc.iterate_all_toRef QueueKind.lifo s
  have hbfs := NodeRc.iterate_all_toRef QueueKind.fifo s
  refine ⟨hdfs, hbfs, ?_, ?_⟩
  · rw [show NodeRef.Graph.dfs (NodeRc.toRef s) = NodeRef.iterate_all QueueKind.lifo (NodeRc.toRef s) from rfl, hdfs]
    exact hid _
  · rw [show NodeRef.Graph.bfs (NodeRc.toRef s) = NodeRef.iterate_all QueueKind.fifo (NodeRc.toRef s) from rfl, hbfs]
    exact hid _
